import Mathlib

/-!
Shallow embedding of the chat-bot source (src/bot.py) together with proofs
about its markup converter, its message chunking and fallback sender, and
its per-user session state.  Python strings are modelled as `List Char`
(code points), Python dict literals for history turns as ordered key/value
lists, floats as rationals, and fallible operations as `Option`/`Except`.
Each regex substitution of `convert_to_html` is modelled by an explicit
left-to-right scanner with the same leftmost, non-overlapping match
semantics as `re.sub`.
-/

namespace Bot

/-- The backquote character (code 96), written via its code point. -/
def bq : Char := Char.ofNat 96

/-- Python `lst[-n:]` for `n ≥ 1`: the last `n` elements. -/
def lastN (l : List α) (n : ℕ) : List α := l.drop (l.length - n)

/-- Python slice `lst[-k:]` including the `k = 0` edge case, where
`lst[-0:]` is the whole list. -/
def pySliceLast (l : List α) (k : ℕ) : List α := if k = 0 then l else lastN l k

/-- Python `\w` (ASCII part): letters, digits, underscore. -/
def isPyWord (c : Char) : Bool := c.isAlphanum || c = '_'

/-- Python `\s`: space, tab, newline, carriage return, vertical tab, form feed. -/
def isPySpace (c : Char) : Bool :=
  c = ' ' || c = '\t' || c = '\n' || c = '\r' || c = '\x0b' || c = '\x0c'

theorem dropWhile_len_le (p : α → Bool) : ∀ l : List α, (l.dropWhile p).length ≤ l.length
  | [] => le_refl _
  | c :: l => by
    rw [List.dropWhile_cons]
    split
    · exact le_trans (dropWhile_len_le p l) (by simp)
    · simp

/-- Earliest occurrence of an unescaped triple backquote: returns the part
before it and the part after it (regex fragment resembling a lazy any-char
group followed by the closing fence). -/
def splitAtFence : List Char → Option (List Char × List Char)
  | [] => none
  | c :: cs =>
    if (c :: cs).take 3 = [bq, bq, bq] then some ([], cs.drop 2)
    else (splitAtFence cs).map fun p => (c :: p.1, p.2)

theorem splitAtFence_lt : ∀ l : List Char, ∀ a b, splitAtFence l = some (a, b) → b.length < l.length
  | [], _, _, h => by simp [splitAtFence] at h
  | c :: cs, a, b, h => by
    rw [splitAtFence] at h
    split at h
    · simp only [Option.some.injEq, Prod.mk.injEq] at h
      have : b = cs.drop 2 := h.2.symm
      subst this
      simp [List.length_drop]
      omega
    · rw [Option.map_eq_some'] at h
      obtain ⟨p, hp, he⟩ := h
      have := splitAtFence_lt cs p.1 p.2 (by rw [hp])
      simp only [Prod.mk.injEq] at he
      have hb : b = p.2 := he.2.symm
      subst hb
      simp
      omega

/-- Consume the optional language tag and optional newline after an opening
fence (regex fragment: word chars then an optional newline). -/
def afterFenceHeader (l : List Char) : List Char :=
  if (l.dropWhile isPyWord).head? = some '\n' then (l.dropWhile isPyWord).tail
  else l.dropWhile isPyWord

theorem afterFenceHeader_le (l : List Char) : (afterFenceHeader l).length ≤ l.length := by
  unfold afterFenceHeader
  split
  · calc (l.dropWhile isPyWord).tail.length ≤ (l.dropWhile isPyWord).length := by
          rw [List.length_tail]; omega
      _ ≤ l.length := dropWhile_len_le _ l
  · exact dropWhile_len_le _ l

/-- Step 1 of convert_to_html (bot.py line 55): replace each fenced code
block by a pre element containing the block body verbatim. -/
def fencedSub : List Char → List Char
  | [] => []
  | c :: cs =>
    if (c :: cs).take 3 = [bq, bq, bq] then
      match h : splitAtFence (afterFenceHeader (cs.drop 2)) with
      | some (content, after) => "<pre>".data ++ content ++ "</pre>".data ++ fencedSub after
      | none => c :: fencedSub cs
    else c :: fencedSub cs
termination_by l => l.length
decreasing_by
  · have h1 := splitAtFence_lt _ _ _ h
    have h2 := afterFenceHeader_le (cs.drop 2)
    simp only [List.length_drop, List.length_cons] at *
    omega
  · simp
  · simp

/-- Find the first occurrence of delimiter `d`: the (possibly empty) prefix
before it and the remainder after it. -/
def findDelimAux (d : Char) : List Char → Option (List Char × List Char)
  | [] => none
  | c :: cs =>
    if c = d then some ([], cs)
    else (findDelimAux d cs).map fun p => (c :: p.1, p.2)

/-- Regex fragment: one or more non-`d` characters followed by `d`; returns
the nonempty inner run and the remainder. -/
def findDelim (d : Char) (l : List Char) : Option (List Char × List Char) :=
  match findDelimAux d l with
  | some (i, a) => if i = [] then none else some (i, a)
  | none => none

theorem findDelimAux_lt (d : Char) :
    ∀ l : List Char, ∀ i a, findDelimAux d l = some (i, a) → a.length < l.length
  | [], _, _, h => by simp [findDelimAux] at h
  | c :: cs, i, a, h => by
    rw [findDelimAux] at h
    split at h
    · simp only [Option.some.injEq, Prod.mk.injEq] at h
      have : a = cs := h.2.symm
      subst this; simp
    · rw [Option.map_eq_some'] at h
      obtain ⟨p, hp, he⟩ := h
      have := findDelimAux_lt d cs p.1 p.2 (by rw [hp])
      simp only [Prod.mk.injEq] at he
      have ha : a = p.2 := he.2.symm
      subst ha; simp; omega

theorem findDelim_lt (d : Char) (l : List Char) (i a : List Char)
    (h : findDelim d l = some (i, a)) : a.length < l.length := by
  unfold findDelim at h
  split at h
  next i0 a0 heq =>
    split at h
    · exact absurd h (by simp)
    · simp only [Option.some.injEq, Prod.mk.injEq] at h
      exact h.2 ▸ findDelimAux_lt d l i0 a0 heq
  next => exact absurd h (by simp)

/-- Step 2 (line 58): inline code spans become code elements. -/
def inlineCodeSub : List Char → List Char
  | [] => []
  | c :: cs =>
    if c = bq then
      match h : findDelim bq cs with
      | some (inner, after) => "<code>".data ++ inner ++ "</code>".data ++ inlineCodeSub after
      | none => c :: inlineCodeSub cs
    else c :: inlineCodeSub cs
termination_by l => l.length
decreasing_by
  · have := findDelim_lt bq cs _ _ h
    simp; omega
  · simp
  · simp

/-- Match attempt for the multiline header regex (line 61) at a line start:
one to six hash marks followed by at least one whitespace character (which
may include newlines, as Python whitespace does); returns the rest of the
current line after the whitespace run, and the remainder of the string. -/
def headerMatch (l : List Char) : Option (List Char × List Char) :=
  if 1 ≤ (l.takeWhile (fun c => c == '#')).length ∧
      (l.takeWhile (fun c => c == '#')).length ≤ 6 ∧
      (l.dropWhile (fun c => c == '#')).head?.elim false isPySpace then
    some (((l.dropWhile (fun c => c == '#')).dropWhile isPySpace).takeWhile (fun c => c != '\n'),
      ((l.dropWhile (fun c => c == '#')).dropWhile isPySpace).dropWhile (fun c => c != '\n'))
  else none

theorem headerMatch_lt (l : List Char) (content after : List Char)
    (h : headerMatch l = some (content, after)) : after.length < l.length := by
  unfold headerMatch at h
  split at h
  · rename_i hc
    cases l with
    | nil => simp at hc
    | cons c cs =>
      simp only [Option.some.injEq, Prod.mk.injEq] at h
      by_cases hcc : c == '#'
      · have ha : after = ((((c :: cs).dropWhile (fun c => c == '#')).dropWhile isPySpace).dropWhile (fun c => c != '\n')) := h.2.symm
        subst ha
        have h1 : ((c :: cs).dropWhile (fun c => c == '#')) = cs.dropWhile (fun c => c == '#') := by
          rw [List.dropWhile_cons]; simp [hcc]
        rw [h1]
        have h2 := dropWhile_len_le (fun c => c == '#') cs
        have h3 := dropWhile_len_le isPySpace (cs.dropWhile (fun c => c == '#'))
        have h4 := dropWhile_len_le (fun c => c != '\n')
          ((cs.dropWhile (fun c => c == '#')).dropWhile isPySpace)
        simp only [List.length_cons]
        omega
      · exfalso
        have : (c :: cs).takeWhile (fun c => c == '#') = [] := by
          rw [List.takeWhile_cons]; simp [hcc]
        rw [this] at hc
        simp at hc
  · exact absurd h (by simp)

/-- Step 3 (line 61): ATX headers at line starts become bold lines.  The
boolean tracks whether the current position is a line start in the original
string (start of string or just after a newline). -/
def headerSubAux : Bool → List Char → List Char
  | _, [] => []
  | atStart, c :: cs =>
    if atStart then
      match h : headerMatch (c :: cs) with
      | some (content, after) => "<b>".data ++ content ++ "</b>".data ++ headerSubAux false after
      | none => c :: headerSubAux (c = '\n') cs
    else c :: headerSubAux (c = '\n') cs
termination_by _ l => l.length
decreasing_by
  · exact headerMatch_lt _ _ _ h
  · simp
  · simp

def headerSub (l : List Char) : List Char := headerSubAux true l

/-- Closing double delimiter search for the bold regexes (lines 64-65): the
lazy dot group cannot cross a newline; returns the span before the earliest
closing pair and the remainder after it. -/
def findBoldClose (d : Char) : List Char → Option (List Char × List Char)
  | [] => none
  | c :: cs =>
    if c = d ∧ cs.head? = some d then some ([], cs.tail)
    else if c = '\n' then none
    else (findBoldClose d cs).map fun p => (c :: p.1, p.2)

theorem findBoldClose_lt (d : Char) :
    ∀ l : List Char, ∀ a b, findBoldClose d l = some (a, b) → b.length < l.length
  | [], _, _, h => by simp [findBoldClose] at h
  | c :: cs, a, b, h => by
    rw [findBoldClose] at h
    split at h
    · simp only [Option.some.injEq, Prod.mk.injEq] at h
      have : b = cs.tail := h.2.symm
      subst this
      have := List.length_tail cs
      simp; omega
    · split at h
      · exact absurd h (by simp)
      · rw [Option.map_eq_some'] at h
        obtain ⟨p, hp, he⟩ := h
        have := findBoldClose_lt d cs p.1 p.2 (by rw [hp])
        simp only [Prod.mk.injEq] at he
        have hb : b = p.2 := he.2.symm
        subst hb; simp; omega

/-- Steps 4a/4b (lines 64-65): double-delimited spans become bold elements;
`d` is the delimiter character (asterisk or underscore). -/
def boldSub (d : Char) : List Char → List Char
  | [] => []
  | c :: cs =>
    if c = d ∧ cs.head? = some d then
      match h : findBoldClose d cs.tail with
      | some (content, after) => "<b>".data ++ content ++ "</b>".data ++ boldSub d after
      | none => c :: boldSub d cs
    else c :: boldSub d cs
termination_by l => l.length
decreasing_by
  · have h1 := findBoldClose_lt d cs.tail _ _ h
    have h2 := List.length_tail cs
    simp; omega
  · simp
  · simp

/-- Steps 5a/5b (lines 68-69): single-delimited spans (with negative
lookarounds excluding adjacent identical delimiters) become italic elements.
`prev` is the character just before the current position in the original
string, for the lookbehind. -/
def italSub (d : Char) : Option Char → List Char → List Char
  | _, [] => []
  | prev, c :: cs =>
    if c = d ∧ ¬ prev = some d then
      match h : findDelim d cs with
      | some (inner, after) =>
        if after.head? = some d then c :: italSub d (some c) cs
        else "<i>".data ++ inner ++ "</i>".data ++ italSub d (some d) after
      | none => c :: italSub d (some c) cs
    else c :: italSub d (some c) cs
termination_by _ l => l.length
decreasing_by
  · simp
  · have := findDelim_lt d cs _ _ h
    simp; omega
  · simp
  · simp

/-- Step 6 (line 72): a leading asterisk or dash followed by whitespace
becomes a bullet glyph and a space.  The boolean tracks line starts; the
whitespace run may swallow newlines, so the next line-start state is
whether the run ended with a newline. -/
def bulletSubAux : Bool → List Char → List Char
  | _, [] => []
  | atStart, c :: cs =>
    if atStart ∧ (c = '*' ∨ c = '-') ∧ cs.head?.elim false isPySpace then
      '•' :: ' ' :: bulletSubAux ((cs.takeWhile isPySpace).getLast? = some '\n') (cs.dropWhile isPySpace)
    else c :: bulletSubAux (c = '\n') cs
termination_by _ l => l.length
decreasing_by
  · have := dropWhile_len_le isPySpace cs
    simp; omega
  · simp

def bulletSub (l : List Char) : List Char := bulletSubAux true l

/-- HTML escaping of one character (lines 86-88). -/
def escapeChar (c : Char) : List Char :=
  if c = '&' then "&amp;".data
  else if c = '<' then "&lt;".data
  else if c = '>' then "&gt;".data
  else [c]

/-- Escape every ampersand and angle bracket in a text span. -/
def escapeText (l : List Char) : List Char := (l.map escapeChar).flatten

/-- The split on line 79: alternate text parts and tag-like parts, where a
tag-like part is an angle bracket, one or more non-closing characters, and
a closing angle bracket.  `acc` holds the current text part reversed.  The
result mirrors Python re.split with a capture group: text, tag, text, tag,
..., text (text parts may be empty). -/
def tagSplitAux : List Char → List Char → List (Bool × List Char)
  | acc, [] => [(false, acc.reverse)]
  | acc, c :: cs =>
    if c = '<' then
      match h : findDelim '>' cs with
      | some (inner, after) =>
        (false, acc.reverse) :: (true, '<' :: (inner ++ ['>'])) :: tagSplitAux [] after
      | none => tagSplitAux (c :: acc) cs
    else tagSplitAux (c :: acc) cs
termination_by _ l => l.length
decreasing_by
  · have := findDelim_lt '>' cs _ _ h
    simp; omega
  · simp
  · simp

/-- The loop body of escape_outside_tags (lines 81-89): a part that starts
with an opening angle bracket and ends with a closing one is kept as is;
every other part is escaped. -/
def processPart (p : Bool × List Char) : List Char :=
  if p.1 then p.2
  else if p.2.head? = some '<' ∧ p.2.getLast? = some '>' then p.2
  else escapeText p.2

/-- Final pass of convert_to_html (lines 77-92). -/
def escape_outside_tags (l : List Char) : List Char :=
  ((tagSplitAux [] l).map processPart).flatten

/-- convert_to_html (lines 43-94) on character lists: the six conversion
steps in source order followed by the escaping pass. -/
def convertChars (l : List Char) : List Char :=
  escape_outside_tags (bulletSub (italSub '_' none (italSub '*' none
    (boldSub '_' (boldSub '*' (headerSub (inlineCodeSub (fencedSub l))))))))

def convert_to_html (s : String) : String := ⟨convertChars s.data⟩

/-! ## send_long_message (lines 97-158) -/

/-- The platform per-message limit (line 102). -/
def MAX_LENGTH : ℕ := 4096

/-- Python str.split on a newline separator: never empty, keeps empty
fields. -/
def splitNl : List Char → List (List Char)
  | [] => [[]]
  | c :: cs =>
    if c = '\n' then [] :: splitNl cs
    else
      match splitNl cs with
      | [] => [[c]]
      | l :: ls => (c :: l) :: ls

/-- Concatenation of lines with the newline each loop iteration appends. -/
def joinLines (ls : List (List Char)) : List Char := (ls.map (· ++ ['\n'])).flatten

/-- One iteration of the chunking loop (lines 122-128): state is the list
of flushed chunks and the current chunk. -/
def chunkStep (st : List (List Char) × List Char) (line : List Char) :
    List (List Char) × List Char :=
  if st.2.length + line.length + 1 ≤ MAX_LENGTH then (st.1, st.2 ++ line ++ ['\n'])
  else if st.2 = [] then (st.1, line ++ ['\n'])
  else (st.1 ++ [st.2], line ++ ['\n'])

/-- Final flush after the loop (lines 129-130). -/
def chunkFinish (st : List (List Char) × List Char) : List (List Char) :=
  if st.2 = [] then st.1 else st.1 ++ [st.2]

def chunkLines (lines : List (List Char)) : List (List Char) :=
  chunkFinish (lines.foldl chunkStep ([], []))

/-- The splitting step of send_long_message (lines 116-130): one chunk when
the text fits, otherwise the greedy line accumulation. -/
def chunk_text (l : List Char) : List (List Char) :=
  if l.length ≤ MAX_LENGTH then [l] else chunkLines (splitNl l)

/-- Tier (b) tag stripping (line 147): remove every tag-like span. -/
def stripTags : List Char → List Char
  | [] => []
  | c :: cs =>
    if c = '<' then
      match h : findDelim '>' cs with
      | some (_, after) => stripTags after
      | none => c :: stripTags cs
    else c :: stripTags cs
termination_by l => l.length
decreasing_by
  · have := findDelim_lt '>' cs _ _ h
    simp; omega
  · simp
  · simp

/-- Tier (b) text (lines 147-148): tags stripped, then the markdown control
characters asterisk, underscore and backquote removed. -/
def tierB_text (chunk : List Char) : List Char :=
  (stripTags chunk).filter fun c => ¬ (c = '*' ∨ c = '_' ∨ c = bq)

/-- Lines 104-113: with use_html set, the text is converted and the parse
mode is HTML.  The except branch (parse mode dropped to none on a
conversion exception) is unreachable in the embedding because
convert_to_html is a total function. -/
def prepare_message (text : String) (use_html : Bool) : String × Option String :=
  if use_html then (convert_to_html text, some "HTML") else (text, none)

/-! ## UserSession and the command handlers (lines 161-325, 397-427) -/

/-- A value stored in a history record: a string or a list of strings. -/
inductive PyVal where
  | str : String → PyVal
  | strList : List String → PyVal
deriving DecidableEq

/-- A history record, as the ordered key/value pairs of the Python dict
literal. -/
abbrev Turn := List (String × PyVal)

/-- The record appended on line 170: role plus a singleton parts list. -/
def mkTurn (role content : String) : Turn :=
  [("role", PyVal.str role), ("parts", PyVal.strList [content])]

structure UserSession where
  history : List Turn
  system_prompt : String
  temperature : ℚ
  model_name : String
  max_history : ℕ
deriving DecidableEq

/-- Constructor defaults (lines 162-167). -/
def UserSession.init : UserSession :=
  { history := []
    system_prompt := "You are a helpful AI assistant."
    temperature := 7/10
    model_name := "gemini-2.5-flash"
    max_history := 1000 }

/-- add_message (lines 169-172): append, then truncate to the last
max_history entries when the bound is exceeded. -/
def UserSession.add_message (s : UserSession) (role content : String) : UserSession :=
  if s.max_history < (s.history ++ [mkTurn role content]).length then
    { s with history := pySliceLast (s.history ++ [mkTurn role content]) s.max_history }
  else { s with history := s.history ++ [mkTurn role content] }

/-- clear_history (lines 174-175). -/
def UserSession.clear_history (s : UserSession) : UserSession := { s with history := [] }

/-- system_command (lines 241-262), state effect only: with arguments, set
the prompt to the space-joined arguments and clear the history; without
arguments the session is untouched. -/
def system_command (s : UserSession) (args : List String) : UserSession :=
  match args with
  | [] => s
  | _ => ({ s with system_prompt := " ".intercalate args }).clear_history

/-- The persona presets (lines 300-306). -/
def personas : List (String × String) :=
  [("helpful", "You are a helpful, friendly AI assistant."),
   ("coding", "You are an expert programmer who writes clean, efficient code and explains technical concepts clearly."),
   ("creative", "You are a creative writer who tells engaging stories and creates compelling content."),
   ("roast", "You are a sarcastic AI who roasts people in a funny way (but keeps it friendly)."),
   ("teacher", "You are a patient teacher who explains things step-by-step in simple terms.")]

/-- Python str.lower on the code points (ASCII case mapping). -/
def pyLower (s : String) : String := ⟨s.data.map Char.toLower⟩

/-- persona_command (lines 296-325), state effect only: a known persona
name (lowercased) sets the prompt and clears the history; anything else
leaves the session untouched. -/
def persona_command (s : UserSession) (args : List String) : UserSession :=
  match args with
  | [] => s
  | a :: _ =>
    match personas.lookup (pyLower a) with
    | some p => ({ s with system_prompt := p }).clear_history
    | none => s

/-- temperature_command (lines 275-283): the argument is the result of
Python float parsing (none models a ValueError; a parsed nan or infinity
fails the interval check in the source just as an out-of-range rational
does here).  Returns the new session and whether the value was accepted. -/
def temperature_command (s : UserSession) (arg : Option ℚ) : UserSession × Bool :=
  match arg with
  | none => (s, false)
  | some t => if 0 ≤ t ∧ t ≤ 2 then ({ s with temperature := t }, true) else (s, false)

/-- The failure reply of the chat handler (lines 424-426). -/
def errorReply (e : String) : String :=
  "❌ Oops! Something went wrong:\n<code>" ++ e ++ "</code>"

/-- chat (lines 397-427): record the user turn, then either record the
model turn and send the converted, chunked reply, or, when the model call
fails, reply with the formatted error.  The Except argument is the outcome
of the generate call. -/
def chat (s : UserSession) (userMsg : String) (api : Except String String) :
    UserSession × List String :=
  match api with
  | Except.ok resp =>
    ((s.add_message "user" userMsg).add_message "model" resp,
      (chunk_text (convert_to_html resp).data).map fun l => (⟨l⟩ : String))
  | Except.error e => (s.add_message "user" userMsg, [errorReply e])

/-- The turns a single chat exchange appends: the user turn, then the model
turn when the call succeeds. -/
def chatTurns (m : String) : Except String String → List Turn
  | Except.ok a => [mkTurn "user" m, mkTurn "model" a]
  | Except.error _ => [mkTurn "user" m]

/-- All turns of a sequence of chat exchanges, in conversation order. -/
def convTurns : List (String × Except String String) → List Turn
  | [] => []
  | (m, r) :: rest => chatTurns m r ++ convTurns rest

/-- Fold a sequence of chat exchanges through the handler. -/
def runChat (s : UserSession) (events : List (String × Except String String)) : UserSession :=
  events.foldl (fun t ev => (chat t ev.1 ev.2).1) s

/-- Concrete oversized text for the chunking edge case: a line of exactly
4096 characters followed by a one-character line. -/
def c3ex : List Char := List.replicate 4096 'a' ++ '\n' :: ['b']

/-! ## Lemmas about list suffixes -/

theorem lastN_of_le (l : List α) (n : ℕ) (h : l.length ≤ n) : lastN l n = l := by
  unfold lastN
  rw [Nat.sub_eq_zero_of_le h, List.drop_zero]

theorem length_lastN (l : List α) (n : ℕ) :
    (lastN l n).length = l.length - (l.length - n) := by
  unfold lastN
  rw [List.length_drop]

theorem lastN_append_of_le (a b : List α) (n : ℕ) (h : n ≤ b.length) :
    lastN (a ++ b) n = lastN b n := by
  unfold lastN
  rw [List.length_append, List.drop_append_eq_append_drop,
    List.drop_eq_nil_of_le (by omega), List.nil_append]
  congr 1
  omega

theorem lastN_lastN (l : List α) (n k : ℕ) (h : k ≤ n) :
    lastN (lastN l n) k = lastN l k := by
  unfold lastN
  rw [List.drop_drop]
  congr 1
  rw [List.length_drop]
  omega

theorem lastN_append_lastN (l m : List α) (n : ℕ) :
    lastN (lastN l n ++ m) n = lastN (l ++ m) n := by
  by_cases h : n ≤ m.length
  · rw [lastN_append_of_le _ _ _ h, lastN_append_of_le _ _ _ h]
  · push_neg at h
    have h2 : ∀ x : List α, lastN (x ++ m) n = lastN x (n - m.length) ++ m := by
      intro x
      unfold lastN
      rw [List.length_append, List.drop_append_eq_append_drop]
      have h3 : x.length + m.length - n - x.length = 0 := by omega
      rw [h3, List.drop_zero]
      congr 2
      omega
    rw [h2, h2, lastN_lastN]
    omega

/-! ## Lemmas about session operations -/

theorem add_message_eq (s : UserSession) (r c : String) (h : 1 ≤ s.max_history) :
    s.add_message r c
      = { s with history := lastN (s.history ++ [mkTurn r c]) s.max_history } := by
  unfold UserSession.add_message
  split
  · unfold pySliceLast
    rw [if_neg (by omega)]
  · rename_i hle
    push_neg at hle
    rw [lastN_of_le _ _ hle]

theorem foldl_add_message_history (msgs : List (String × String)) :
    ∀ s : UserSession, 1 ≤ s.max_history → msgs ≠ [] →
      (msgs.foldl (fun t m => t.add_message m.1 m.2) s).history
        = lastN (s.history ++ msgs.map fun m => mkTurn m.1 m.2) s.max_history ∧
      (msgs.foldl (fun t m => t.add_message m.1 m.2) s).max_history = s.max_history := by
  induction msgs with
  | nil => intro s h hne; exact absurd rfl hne
  | cons m rest ih =>
    intro s h _
    rw [List.foldl_cons]
    by_cases hr : rest = []
    · subst hr
      simp only [List.foldl_nil, List.map_cons, List.map_nil]
      rw [add_message_eq s m.1 m.2 h]
      exact ⟨rfl, rfl⟩
    · have h2 : (s.add_message m.1 m.2).max_history = s.max_history := by
        rw [add_message_eq s m.1 m.2 h]
      obtain ⟨ih1, ih2⟩ := ih (s.add_message m.1 m.2) (by rw [h2]; exact h) hr
      refine ⟨?_, by rw [ih2, h2]⟩
      rw [ih1, h2, add_message_eq s m.1 m.2 h]
      show lastN (lastN (s.history ++ [mkTurn m.1 m.2]) s.max_history
          ++ rest.map fun x => mkTurn x.1 x.2) s.max_history = _
      rw [lastN_append_lastN]
      congr 1
      rw [List.append_assoc]
      rfl

theorem chat_history (s : UserSession) (m : String) (r : Except String String)
    (h : 1 ≤ s.max_history) :
    (chat s m r).1.history = lastN (s.history ++ chatTurns m r) s.max_history ∧
    (chat s m r).1.max_history = s.max_history := by
  cases r with
  | error e =>
    have e1 := add_message_eq s "user" m h
    refine ⟨?_, ?_⟩
    · show (s.add_message "user" m).history = _
      rw [e1]
      rfl
    · show (s.add_message "user" m).max_history = _
      rw [e1]
  | ok a =>
    have e1 := add_message_eq s "user" m h
    have e2 := add_message_eq (s.add_message "user" m) "model" a (by rw [e1]; exact h)
    refine ⟨?_, ?_⟩
    · show ((s.add_message "user" m).add_message "model" a).history = _
      rw [e2, e1]
      show lastN (lastN (s.history ++ [mkTurn "user" m]) s.max_history
          ++ [mkTurn "model" a]) s.max_history = _
      rw [lastN_append_lastN]
      congr 1
      rw [List.append_assoc]
      rfl
    · show ((s.add_message "user" m).add_message "model" a).max_history = _
      rw [e2, e1]

theorem runChat_history (events : List (String × Except String String)) :
    ∀ s : UserSession, 1 ≤ s.max_history → s.history.length ≤ s.max_history →
      (runChat s events).history = lastN (s.history ++ convTurns events) s.max_history := by
  induction events with
  | nil =>
    intro s _ hlen
    show s.history = _
    rw [show convTurns [] = [] from rfl, List.append_nil, lastN_of_le _ _ hlen]
  | cons ev rest ih =>
    intro s h hlen
    show (runChat (chat s ev.1 ev.2).1 rest).history = _
    obtain ⟨h1, h2⟩ := chat_history s ev.1 ev.2 h
    have h3 : ((chat s ev.1 ev.2).1).history.length ≤ ((chat s ev.1 ev.2).1).max_history := by
      rw [h1, h2, length_lastN]; omega
    rw [ih (chat s ev.1 ev.2).1 (by rw [h2]; exact h) h3, h1, h2, lastN_append_lastN]
    congr 1
    rw [List.append_assoc]
    congr 1

theorem convTurns_shape : ∀ events : List (String × Except String String),
    ∀ t ∈ convTurns events, ∃ role c, t = mkTurn role c ∧ (role = "user" ∨ role = "model")
  | [], t, ht => absurd ht (by simp [convTurns])
  | (m, r) :: rest, t, ht => by
    rw [show convTurns ((m, r) :: rest) = chatTurns m r ++ convTurns rest from rfl,
      List.mem_append] at ht
    rcases ht with ht | ht
    · cases r with
      | ok a =>
        rw [show chatTurns m (Except.ok a) = [mkTurn "user" m, mkTurn "model" a] from rfl] at ht
        simp only [List.mem_cons, List.not_mem_nil, or_false] at ht
        rcases ht with rfl | rfl
        · exact ⟨"user", m, rfl, Or.inl rfl⟩
        · exact ⟨"model", a, rfl, Or.inr rfl⟩
      | error e =>
        rw [show chatTurns m (Except.error e) = [mkTurn "user" m] from rfl] at ht
        simp only [List.mem_cons, List.not_mem_nil, or_false] at ht
        rcases ht with rfl
        exact ⟨"user", m, rfl, Or.inl rfl⟩
    · exact convTurns_shape rest t ht

/-! ## Claims about the session state and handlers -/

/-- C4: appending more than max_history turns leaves exactly the most
recent max_history of them, in their original relative order (a suffix of
the appended sequence), with the oldest evicted. -/
theorem c4_history_fifo (s : UserSession) (msgs : List (String × String))
    (h1 : 1 ≤ s.max_history) (h2 : s.max_history < msgs.length) :
    (msgs.foldl (fun t m => t.add_message m.1 m.2) s).history
        = lastN (msgs.map fun m => mkTurn m.1 m.2) s.max_history ∧
    ((msgs.foldl (fun t m => t.add_message m.1 m.2) s).history).length = s.max_history ∧
    (msgs.foldl (fun t m => t.add_message m.1 m.2) s).history
        <:+ (msgs.map fun m => mkTurn m.1 m.2) := by
  have hne : msgs ≠ [] := by
    intro hh
    rw [hh] at h2
    simp at h2
  obtain ⟨hh, _⟩ := foldl_add_message_history msgs s h1 hne
  have hmlen : s.max_history ≤ (msgs.map fun m => mkTurn m.1 m.2).length := by
    rw [List.length_map]; omega
  rw [hh, lastN_append_of_le _ _ _ hmlen]
  refine ⟨rfl, ?_, ?_⟩
  · rw [length_lastN, List.length_map]
    omega
  · unfold lastN
    exact ⟨List.take _ _, List.take_append_drop _ _⟩

/-- A concrete session with a small history bound, for evaluating the
session claims on explicit inputs. -/
def smallSess : UserSession :=
  { history := [], system_prompt := "p", temperature := 0, model_name := "m", max_history := 2 }

theorem c4_history_fifo_witness :
    ([("user", "a"), ("model", "b"), ("user", "c")].foldl
        (fun t m => t.add_message m.1 m.2) smallSess).history
        = lastN ([("user", "a"), ("model", "b"), ("user", "c")].map
            fun m => mkTurn m.1 m.2) smallSess.max_history ∧
    (([("user", "a"), ("model", "b"), ("user", "c")].foldl
        (fun t m => t.add_message m.1 m.2) smallSess).history).length = smallSess.max_history ∧
    ([("user", "a"), ("model", "b"), ("user", "c")].foldl
        (fun t m => t.add_message m.1 m.2) smallSess).history
        <:+ ([("user", "a"), ("model", "b"), ("user", "c")].map fun m => mkTurn m.1 m.2) :=
  c4_history_fifo smallSess [("user", "a"), ("model", "b"), ("user", "c")]
    (by decide) (by decide)

/-- C5: a system-prompt change through the system command (with arguments)
or through a valid persona selection leaves the history empty. -/
theorem c5_new_prompt_clears_history (s : UserSession) (args : List String) (h : args ≠ [])
    (a : String) (rest : List String) (hp : (personas.lookup (pyLower a)).isSome) :
    (system_command s args).history = [] ∧ (persona_command s (a :: rest)).history = [] := by
  constructor
  · cases args with
    | nil => exact absurd rfl h
    | cons x xs => rfl
  · obtain ⟨p, hp2⟩ := Option.isSome_iff_exists.mp hp
    simp [persona_command, hp2, UserSession.clear_history]

theorem c5_new_prompt_clears_history_witness :
    (system_command UserSession.init ["be", "terse"]).history = [] ∧
    (persona_command UserSession.init ["CODING"]).history = [] :=
  c5_new_prompt_clears_history UserSession.init ["be", "terse"] (by decide)
    "CODING" [] (by decide)

/-- C6: the temperature setter accepts exactly the closed interval from 0
to 2, updating the session in place, and rejects values outside it and
unparsable input without changing the session. -/
theorem c6_temperature_range (s : UserSession) (t : ℚ) :
    temperature_command s none = (s, false) ∧
    (0 ≤ t → t ≤ 2 → temperature_command s (some t) = ({ s with temperature := t }, true)) ∧
    ((t < 0 ∨ 2 < t) → temperature_command s (some t) = (s, false)) := by
  refine ⟨rfl, ?_, ?_⟩
  · intro h1 h2
    show (if 0 ≤ t ∧ t ≤ 2 then _ else _) = _
    rw [if_pos ⟨h1, h2⟩]
  · intro h
    show (if 0 ≤ t ∧ t ≤ 2 then _ else _) = _
    rw [if_neg]
    rintro ⟨h1, h2⟩
    rcases h with h | h <;> linarith

theorem c6_temperature_range_witness :
    temperature_command UserSession.init (some (3/2))
        = ({ UserSession.init with temperature := 3/2 }, true) ∧
    temperature_command UserSession.init (some 3) = (UserSession.init, false) ∧
    temperature_command UserSession.init none = (UserSession.init, false) :=
  ⟨(c6_temperature_range UserSession.init (3/2)).2.1 (by norm_num) (by norm_num),
   (c6_temperature_range UserSession.init 3).2.2 (Or.inr (by norm_num)),
   (c6_temperature_range UserSession.init 3).1⟩

/-- C7: when the model call fails, the handler replies with the formatted
failure message containing the upstream error text, the user turn is the
last history entry, and no model turn was recorded (every model turn in
the resulting history was already present). -/
theorem c7_upstream_error (s : UserSession) (m e : String) (h : 1 ≤ s.max_history) :
    (chat s m (Except.error e)).2
        = ["❌ Oops! Something went wrong:\n<code>" ++ e ++ "</code>"] ∧
    (∃ pre, (chat s m (Except.error e)).1.history = pre ++ [mkTurn "user" m]) ∧
    (∀ t ∈ (chat s m (Except.error e)).1.history,
        t.lookup "role" = some (PyVal.str "model") → t ∈ s.history) := by
  have hh : (chat s m (Except.error e)).1.history
      = s.history.drop ((s.history ++ [mkTurn "user" m]).length - s.max_history)
        ++ [mkTurn "user" m] := by
    show (s.add_message "user" m).history = _
    rw [add_message_eq s "user" m h]
    show lastN (s.history ++ [mkTurn "user" m]) s.max_history = _
    unfold lastN
    rw [List.drop_append_eq_append_drop]
    congr 1
    have h2 : (s.history ++ [mkTurn "user" m]).length - s.max_history - s.history.length = 0 := by
      simp only [List.length_append, List.length_cons, List.length_nil]
      omega
    rw [h2, List.drop_zero]
  refine ⟨rfl, ⟨_, hh⟩, ?_⟩
  intro t ht hrole
  rw [hh, List.mem_append] at ht
  rcases ht with ht | ht
  · exact List.drop_subset _ _ ht
  · exfalso
    simp only [List.mem_cons, List.not_mem_nil, or_false] at ht
    subst ht
    rw [show (mkTurn "user" m).lookup "role" = some (PyVal.str "user") from rfl] at hrole
    simp at hrole

theorem c7_upstream_error_witness :
    (chat UserSession.init "hi" (Except.error "quota exceeded")).2
        = ["❌ Oops! Something went wrong:\n<code>" ++ "quota exceeded" ++ "</code>"] ∧
    (∃ pre, (chat UserSession.init "hi" (Except.error "quota exceeded")).1.history
        = pre ++ [mkTurn "user" "hi"]) ∧
    (∀ t ∈ (chat UserSession.init "hi" (Except.error "quota exceeded")).1.history,
        t.lookup "role" = some (PyVal.str "model") → t ∈ UserSession.init.history) :=
  c7_upstream_error UserSession.init "hi" "quota exceeded" (by decide)

/-- C9 counterexample: the record appended by add_message is keyed role
and parts, where parts holds the singleton list of the content, not a
content key holding the string. -/
theorem c9_counterexample :
    (UserSession.init.add_message "user" "hi").history = [mkTurn "user" "hi"] ∧
    mkTurn "user" "hi" ≠ [("role", PyVal.str "user"), ("content", PyVal.str "hi")] ∧
    (mkTurn "user" "hi").lookup "content" = none ∧
    (mkTurn "user" "hi").lookup "parts" = some (PyVal.strList ["hi"]) := by
  refine ⟨?_, by decide, by decide, by decide⟩
  rw [add_message_eq UserSession.init "user" "hi" (by decide)]
  rfl

/-- C9 (amended): every turn a sequence of chat exchanges puts into the
history is of the shape role plus parts-singleton with role user or model,
and the history is the order-preserving suffix of the conversation turn
sequence that fits the bound. -/
theorem c9_turn_shape (events : List (String × Except String String)) (s : UserSession)
    (h1 : 1 ≤ s.max_history) (h2 : s.history = []) :
    (runChat s events).history = lastN (convTurns events) s.max_history ∧
    ∀ t ∈ (runChat s events).history,
      ∃ role c, t = mkTurn role c ∧ (role = "user" ∨ role = "model") := by
  have h3 : s.history.length ≤ s.max_history := by rw [h2]; simp
  have hh := runChat_history events s h1 h3
  rw [h2, List.nil_append] at hh
  refine ⟨hh, ?_⟩
  intro t ht
  rw [hh] at ht
  exact convTurns_shape events t (List.drop_subset _ _ ht)

theorem c9_turn_shape_witness :
    (runChat UserSession.init [("hi", Except.ok "yo")]).history
        = lastN (convTurns [("hi", Except.ok "yo")]) UserSession.init.max_history ∧
    ∀ t ∈ (runChat UserSession.init [("hi", Except.ok "yo")]).history,
      ∃ role c, t = mkTurn role c ∧ (role = "user" ∨ role = "model") :=
  c9_turn_shape [("hi", Except.ok "yo")] UserSession.init (by decide) rfl

/-- C10: markdown-to-HTML conversion is a total function (the embedding
carries no Option or Except), so the sender's prepared output for the
html path always carries the converted text and the HTML parse mode; the
fail-open branch that would drop the parse mode is unreachable. -/
theorem c10_conversion_total (text : String) :
    prepare_message text true = (convert_to_html text, some "HTML") ∧
    (prepare_message text true).2 ≠ none := by
  exact ⟨rfl, by simp [prepare_message]⟩

/-! ## Lemmas about the conversion scanners -/

theorem fencedSub_id (l : List Char) (h : bq ∉ l) : fencedSub l = l := by
  induction l with
  | nil => simp [fencedSub]
  | cons c cs ih =>
    have hc : ¬ c = bq := fun hh => h (hh ▸ List.mem_cons_self c cs)
    have htake : ¬ (c :: cs).take 3 = [bq, bq, bq] := by
      intro hh
      have h2 := congrArg List.head? hh
      simp at h2
      exact hc h2
    rw [fencedSub, if_neg htake, ih (fun hm => h (List.mem_cons_of_mem c hm))]

theorem inlineCodeSub_id (l : List Char) (h : bq ∉ l) : inlineCodeSub l = l := by
  induction l with
  | nil => simp [inlineCodeSub]
  | cons c cs ih =>
    have hc : ¬ c = bq := fun hh => h (hh ▸ List.mem_cons_self c cs)
    rw [inlineCodeSub, if_neg hc, ih (fun hm => h (List.mem_cons_of_mem c hm))]

theorem headerMatch_none (c : Char) (cs : List Char) (hc : ¬ c = '#') :
    headerMatch (c :: cs) = none := by
  unfold headerMatch
  rw [if_neg]
  intro hcond
  have h1 := hcond.1
  rw [List.takeWhile_cons, if_neg (by simp [hc])] at h1
  simp at h1

theorem headerSubAux_id (l : List Char) (h : '#' ∉ l) : ∀ b, headerSubAux b l = l := by
  induction l with
  | nil => intro b; simp [headerSubAux]
  | cons c cs ih =>
    intro b
    have hc : ¬ c = '#' := fun hh => h (hh ▸ List.mem_cons_self c cs)
    have ihx := ih (fun hm => h (List.mem_cons_of_mem c hm))
    rw [headerSubAux]
    split
    · rw [headerMatch_none c cs hc]
      rw [ihx]
    · rw [ihx]

theorem headerSub_id (l : List Char) (h : '#' ∉ l) : headerSub l = l :=
  headerSubAux_id l h true

theorem boldSub_id (d : Char) (l : List Char) (h : d ∉ l) : boldSub d l = l := by
  induction l with
  | nil => simp [boldSub]
  | cons c cs ih =>
    have hc : ¬ c = d := fun hh => h (hh ▸ List.mem_cons_self c cs)
    rw [boldSub, if_neg (fun hh => hc hh.1), ih (fun hm => h (List.mem_cons_of_mem c hm))]

theorem italSub_id (d : Char) (l : List Char) (h : d ∉ l) : ∀ p, italSub d p l = l := by
  induction l with
  | nil => intro p; simp [italSub]
  | cons c cs ih =>
    intro p
    have hc : ¬ c = d := fun hh => h (hh ▸ List.mem_cons_self c cs)
    rw [italSub, if_neg (fun hh => hc hh.1), ih (fun hm => h (List.mem_cons_of_mem c hm))]

theorem bulletSubAux_id (l : List Char) (h : '*' ∉ l ∧ '-' ∉ l) : ∀ b, bulletSubAux b l = l := by
  induction l with
  | nil => intro b; simp [bulletSubAux]
  | cons c cs ih =>
    intro b
    have hc : ¬ (c = '*' ∨ c = '-') := by
      rintro (rfl | rfl)
      · exact h.1 (List.mem_cons_self _ _)
      · exact h.2 (List.mem_cons_self _ _)
    have ihx := ih ⟨fun hm => h.1 (List.mem_cons_of_mem c hm),
      fun hm => h.2 (List.mem_cons_of_mem c hm)⟩
    rw [bulletSubAux, if_neg (fun hh => hc hh.2.1), ihx]

theorem bulletSub_id (l : List Char) (h : '*' ∉ l ∧ '-' ∉ l) : bulletSub l = l :=
  bulletSubAux_id l h true

theorem findDelimAux_append (d : Char) (i : List Char) : ∀ a, d ∉ i →
    findDelimAux d (i ++ d :: a) = some (i, a) := by
  induction i with
  | nil =>
    intro a _
    show findDelimAux d (d :: a) = _
    rw [findDelimAux, if_pos rfl]
  | cons x xs ih =>
    intro a h
    have hx : ¬ x = d := fun hh => h (hh ▸ List.mem_cons_self x xs)
    show findDelimAux d (x :: (xs ++ d :: a)) = _
    rw [findDelimAux, if_neg hx, ih a (fun hm => h (List.mem_cons_of_mem x hm))]
    rfl

theorem findDelim_append (d : Char) (i a : List Char) (h : d ∉ i) (hne : i ≠ []) :
    findDelim d (i ++ d :: a) = some (i, a) := by
  unfold findDelim
  rw [findDelimAux_append d i a h]
  show (if i = [] then none else some (i, a)) = some (i, a)
  rw [if_neg hne]

theorem findDelimAux_none (d : Char) (l : List Char) (h : d ∉ l) :
    findDelimAux d l = none := by
  induction l with
  | nil => rfl
  | cons x xs ih =>
    rw [findDelimAux, if_neg (fun hh => h (by rw [← hh]; exact List.mem_cons_self x xs)),
      ih (fun hm => h (List.mem_cons_of_mem x hm))]
    rfl

theorem findDelim_none (d : Char) (l : List Char) (h : d ∉ l) : findDelim d l = none := by
  unfold findDelim
  rw [findDelimAux_none d l h]

theorem tagSplitAux_decomp (a : List Char) : ∀ acc inner b, '<' ∉ a → inner ≠ [] → '>' ∉ inner →
    tagSplitAux acc (a ++ '<' :: (inner ++ '>' :: b))
      = (false, acc.reverse ++ a) :: (true, '<' :: (inner ++ ['>'])) :: tagSplitAux [] b := by
  induction a with
  | nil =>
    intro acc inner b _ hne hgt
    show tagSplitAux acc ('<' :: (inner ++ '>' :: b)) = _
    rw [tagSplitAux, if_pos rfl, findDelim_append '>' inner b hgt hne]
    simp
  | cons x xs ih =>
    intro acc inner b hlt hne hgt
    have hx : ¬ x = '<' := fun hh => hlt (hh ▸ List.mem_cons_self x xs)
    show tagSplitAux acc (x :: (xs ++ '<' :: (inner ++ '>' :: b))) = _
    rw [tagSplitAux, if_neg hx,
      ih (x :: acc) inner b (fun hm => hlt (List.mem_cons_of_mem x hm)) hne hgt]
    simp

theorem processPart_text (a : List Char) (h : '<' ∉ a) :
    processPart (false, a) = escapeText a := by
  unfold processPart
  rw [if_neg (by simp)]
  rw [if_neg]
  rintro ⟨h1, _⟩
  cases a with
  | nil => simp at h1
  | cons x xs =>
    simp at h1
    exact h (h1 ▸ List.mem_cons_self x xs)

theorem escape_nil : escape_outside_tags [] = [] := by
  unfold escape_outside_tags
  rw [tagSplitAux]
  simp [processPart, escapeText]

theorem escape_tag_decomp (a inner b : List Char) (ha : '<' ∉ a) (hi : inner ≠ [])
    (hg : '>' ∉ inner) :
    escape_outside_tags (a ++ '<' :: (inner ++ '>' :: b))
      = escapeText a ++ '<' :: (inner ++ '>' :: escape_outside_tags b) := by
  unfold escape_outside_tags
  rw [tagSplitAux_decomp a [] inner b ha hi hg]
  rw [List.map_cons, List.map_cons, List.flatten_cons, List.flatten_cons]
  rw [show ((List.reverse []) ++ a : List Char) = a from by simp]
  rw [processPart_text a ha]
  rw [show processPart (true, '<' :: (inner ++ ['>'])) = '<' :: (inner ++ ['>']) from rfl]
  simp [List.append_assoc]

theorem escapeText_id (l : List Char) (h : ∀ c ∈ l, ¬ c = '&' ∧ ¬ c = '<' ∧ ¬ c = '>') :
    escapeText l = l := by
  induction l with
  | nil => rfl
  | cons x xs ih =>
    obtain ⟨h1, h2, h3⟩ := h x (List.mem_cons_self x xs)
    show escapeText (x :: xs) = x :: xs
    unfold escapeText
    rw [List.map_cons, List.flatten_cons]
    rw [show escapeChar x = [x] from by unfold escapeChar; rw [if_neg h1, if_neg h2, if_neg h3]]
    rw [show (List.map escapeChar xs).flatten = escapeText xs from rfl,
      ih (fun c hc => h c (List.mem_cons_of_mem x hc))]
    rfl

theorem splitAtFence_clean (c : List Char) (h : bq ∉ c) :
    splitAtFence (c ++ [bq, bq, bq]) = some (c, []) := by
  induction c with
  | nil =>
    show splitAtFence [bq, bq, bq] = some ([], [])
    rw [splitAtFence,
      if_pos (show List.take 3 [bq, bq, bq] = [bq, bq, bq] from rfl)]
    rfl
  | cons x xs ih =>
    have hx : ¬ x = bq := fun hh => h (hh ▸ List.mem_cons_self x xs)
    show splitAtFence (x :: (xs ++ [bq, bq, bq])) = some (x :: xs, [])
    rw [splitAtFence]
    rw [if_neg (by intro hh; have h2 := congrArg List.head? hh; simp at h2; exact hx h2)]
    rw [ih (fun hm => h (List.mem_cons_of_mem x hm))]
    rfl

theorem fencedSub_fence (c : List Char) (h : bq ∉ c) :
    fencedSub ([bq, bq, bq, '\n'] ++ c ++ [bq, bq, bq])
      = "<pre>".data ++ c ++ "</pre>".data := by
  have hafh : afterFenceHeader ('\n' :: (c ++ [bq, bq, bq])) = c ++ [bq, bq, bq] := by
    unfold afterFenceHeader
    rw [List.dropWhile_cons, if_neg (show ¬ isPyWord '\n' = true from by decide)]
    rw [if_pos (show ('\n' :: (c ++ [bq, bq, bq])).head? = some '\n' from rfl)]
    rfl
  show fencedSub (bq :: bq :: bq :: '\n' :: (c ++ [bq, bq, bq])) = _
  rw [fencedSub,
    if_pos (show List.take 3 (bq :: bq :: bq :: '\n' :: (c ++ [bq, bq, bq]))
      = [bq, bq, bq] from rfl)]
  rw [show (List.drop 2 (bq :: bq :: '\n' :: (c ++ [bq, bq, bq])) : List Char)
      = '\n' :: (c ++ [bq, bq, bq]) from rfl]
  rw [hafh, splitAtFence_clean c h]
  show "<pre>".data ++ c ++ "</pre>".data ++ fencedSub [] = _
  rw [show fencedSub [] = [] from by simp [fencedSub]]
  simp

theorem stripTags_no_gt (l : List Char) (h : '>' ∉ l) : stripTags l = l := by
  induction l with
  | nil => simp [stripTags]
  | cons x xs ih =>
    have ihx := ih (fun hm => h (List.mem_cons_of_mem x hm))
    rw [stripTags]
    split
    · rw [findDelim_none '>' xs (fun hm => h (List.mem_cons_of_mem x hm))]
      show x :: stripTags xs = x :: xs
      rw [ihx]
    · rw [ihx]

/-! ## Lemmas about chunking -/

theorem splitNl_ne_nil (l : List Char) : splitNl l ≠ [] := by
  cases l with
  | nil => simp [splitNl]
  | cons c cs =>
    rw [splitNl]
    split
    · simp
    · split <;> simp

theorem splitNl_append_nl (a : List Char) : ∀ b, (∀ c ∈ a, ¬ c = '\n') →
    splitNl (a ++ '\n' :: b) = a :: splitNl b := by
  induction a with
  | nil =>
    intro b _
    show splitNl ('\n' :: b) = [] :: splitNl b
    rw [splitNl, if_pos rfl]
  | cons x a ih =>
    intro b h
    have hx : ¬ x = '\n' := h x (List.mem_cons_self x a)
    show splitNl (x :: (a ++ '\n' :: b)) = (x :: a) :: splitNl b
    rw [splitNl, if_neg hx, ih b (fun c hc => h c (List.mem_cons_of_mem x hc))]

theorem joinLines_cons (x : List Char) (ls : List (List Char)) :
    joinLines (x :: ls) = x ++ ['\n'] ++ joinLines ls := by
  simp [joinLines]

theorem joinLines_splitNl (l : List Char) : joinLines (splitNl l) = l ++ ['\n'] := by
  induction l with
  | nil => rfl
  | cons c cs ih =>
    rw [splitNl]
    by_cases hc : c = '\n'
    · rw [if_pos hc]
      subst hc
      rw [joinLines_cons, ih]
      rfl
    · rw [if_neg hc]
      obtain ⟨l1, ls, hmatch⟩ : ∃ l1 ls, splitNl cs = l1 :: ls := by
        cases hmm : splitNl cs with
        | nil => exact absurd hmm (splitNl_ne_nil cs)
        | cons p q => exact ⟨p, q, rfl⟩
      rw [hmatch]
      show joinLines ((c :: l1) :: ls) = (c :: cs) ++ ['\n']
      rw [joinLines_cons]
      have h2 : joinLines (l1 :: ls) = cs ++ ['\n'] := by rw [← hmatch, ih]
      rw [joinLines_cons] at h2
      show c :: (l1 ++ ['\n'] ++ joinLines ls) = (c :: cs) ++ ['\n']
      rw [h2]
      rfl

theorem chunkLines_join : ∀ (lines : List (List Char)) (st : List (List Char) × List Char),
    (chunkFinish (lines.foldl chunkStep st)).flatten
      = st.1.flatten ++ st.2 ++ joinLines lines := by
  intro lines
  induction lines with
  | nil =>
    intro st
    rw [List.foldl_nil]
    unfold chunkFinish
    split
    · rename_i h2
      rw [h2]
      simp [joinLines]
    · simp [joinLines]
  | cons l ls ih =>
    intro st
    rw [List.foldl_cons, ih, joinLines_cons]
    unfold chunkStep
    split
    · simp [List.append_assoc]
    · split
      · rename_i h2
        rw [h2]
        simp [List.append_assoc]
      · simp [List.append_assoc]

theorem chunkLines_bound : ∀ (lines : List (List Char)) (st : List (List Char) × List Char),
    (∀ l ∈ lines, l.length + 1 ≤ MAX_LENGTH) →
    (∀ ch ∈ st.1, ch.length ≤ MAX_LENGTH) → st.2.length ≤ MAX_LENGTH →
    ∀ ch ∈ chunkFinish (lines.foldl chunkStep st), ch.length ≤ MAX_LENGTH := by
  intro lines
  induction lines with
  | nil =>
    intro st _ h1 h2
    rw [List.foldl_nil]
    unfold chunkFinish
    split
    · exact h1
    · intro ch hch
      rw [List.mem_append] at hch
      rcases hch with hch | hch
      · exact h1 ch hch
      · simp only [List.mem_cons, List.not_mem_nil, or_false] at hch
        subst hch
        exact h2
  | cons l ls ih =>
    intro st hl h1 h2
    rw [List.foldl_cons]
    refine ih (chunkStep st l) (fun x hx => hl x (List.mem_cons_of_mem l hx)) ?_ ?_
    · unfold chunkStep
      split
      · exact h1
      · split
        · exact h1
        · intro ch hch
          rw [List.mem_append] at hch
          rcases hch with hch | hch
          · exact h1 ch hch
          · simp only [List.mem_cons, List.not_mem_nil, or_false] at hch
            subst hch
            exact h2
    · unfold chunkStep
      split
      · rename_i hcond
        simp only [List.length_append, List.length_cons, List.length_nil]
        omega
      · have hli := hl l (List.mem_cons_self l ls)
        split <;>
        · simp only [List.length_append, List.length_cons, List.length_nil]
          omega

theorem c3ex_length : c3ex.length = 4098 := by
  rw [show c3ex = List.replicate 4096 'a' ++ '\n' :: ['b'] from rfl,
    List.length_append, List.length_replicate]
  rfl

theorem c3ex_splitNl : splitNl c3ex = [List.replicate 4096 'a', ['b']] := by
  show splitNl (List.replicate 4096 'a' ++ '\n' :: ['b']) = _
  rw [splitNl_append_nl _ ['b']
    (fun c hc => by rw [List.eq_of_mem_replicate hc]; decide)]
  rfl

theorem c3ex_chunks : chunk_text c3ex = [List.replicate 4096 'a' ++ ['\n'], ['b', '\n']] := by
  have hc1 : ¬ (([], ([] : List Char)) : List (List Char) × List Char).2.length
      + (List.replicate 4096 'a').length + 1 ≤ MAX_LENGTH := by
    rw [List.length_replicate]
    decide
  have hc2 : ¬ (([], List.replicate 4096 'a' ++ ['\n'])
        : List (List Char) × List Char).2.length + (['b'] : List Char).length + 1
      ≤ MAX_LENGTH := by
    rw [show (([], List.replicate 4096 'a' ++ ['\n'])
        : List (List Char) × List Char).2 = List.replicate 4096 'a' ++ ['\n'] from rfl]
    rw [List.length_append, List.length_replicate]
    decide
  have hc3 : ¬ (([], List.replicate 4096 'a' ++ ['\n'])
      : List (List Char) × List Char).2 = [] := by
    show ¬ List.replicate 4096 'a' ++ ['\n'] = []
    intro hh
    have h4 := congrArg List.length hh
    rw [List.length_append, List.length_replicate] at h4
    simp at h4
  have e1 : chunkStep ([], []) (List.replicate 4096 'a')
      = ([], List.replicate 4096 'a' ++ ['\n']) := by
    unfold chunkStep
    rw [if_neg hc1, if_pos rfl]
  have e2 : chunkStep ([], List.replicate 4096 'a' ++ ['\n']) ['b']
      = ([List.replicate 4096 'a' ++ ['\n']], ['b', '\n']) := by
    unfold chunkStep
    rw [if_neg hc2, if_neg hc3]
    rfl
  show (if c3ex.length ≤ MAX_LENGTH then [c3ex] else chunkLines (splitNl c3ex)) = _
  rw [if_neg (by rw [c3ex_length]; decide), c3ex_splitNl]
  show chunkFinish (List.foldl chunkStep ([], []) [List.replicate 4096 'a', ['b']]) = _
  rw [List.foldl_cons, e1, List.foldl_cons, e2, List.foldl_nil]
  unfold chunkFinish
  rw [if_neg (by simp)]
  rfl

/-! ## Claims about the converter, the chunking and the fallback ladder -/

/-- C1 counterexample: an angle-bracketed substring that is not one of the
emitted tags, such as the div tag, is left intact by the converter, not
escaped into text. -/
theorem c1_counterexample :
    convert_to_html "<div>" = "<div>" ∧ convert_to_html "<div>" ≠ "&lt;div&gt;" := by
  have h : convert_to_html "<div>" = "<div>" := by
    show (⟨convertChars "<div>".data⟩ : String) = "<div>"
    unfold convertChars
    rw [fencedSub_id _ (by decide), inlineCodeSub_id _ (by decide),
      headerSub_id _ (by decide), boldSub_id '*' _ (by decide), boldSub_id '_' _ (by decide),
      italSub_id '*' _ (by decide) none, italSub_id '_' _ (by decide) none,
      bulletSub_id _ (by decide)]
    rw [show "<div>".data = ([] : List Char) ++ '<' :: ("div".data ++ '>' :: []) from by decide]
    rw [escape_tag_decomp [] "div".data [] (by decide) (by decide) (by decide), escape_nil]
    decide
  exact ⟨h, by rw [h]; decide⟩

/-- C1 (amended): the final escaping pass preserves every substring
matching the generic tag pattern (an angle bracket, one or more non-closing
characters, a closing bracket) whether or not it is one of the emitted
tags, and escapes ampersands and angle brackets in the text before it,
continuing identically on the rest. -/
theorem c1_escape_generic_tags (a inner b : List Char) (ha : '<' ∉ a) (hi : inner ≠ [])
    (hg : '>' ∉ inner) :
    escape_outside_tags (a ++ '<' :: (inner ++ '>' :: b))
      = escapeText a ++ '<' :: (inner ++ '>' :: escape_outside_tags b) :=
  escape_tag_decomp a inner b ha hi hg

theorem c1_escape_generic_tags_witness :
    escape_outside_tags ("x&".data ++ '<' :: ("div".data ++ '>' :: "&y".data))
      = escapeText "x&".data ++ '<' :: ("div".data ++ '>' :: escape_outside_tags "&y".data) :=
  c1_escape_generic_tags "x&".data "div".data "&y".data (by decide) (by decide) (by decide)

/-- C2 counterexample: a literal ampersand inside a fenced code block is
escaped by the final pass, so the pre content is not preserved verbatim. -/
theorem c2_counterexample :
    convert_to_html "```\nx & y\n```" = "<pre>x &amp; y\n</pre>" ∧
    convert_to_html "```\nx & y\n```" ≠ "<pre>x & y\n</pre>" := by
  have h : convert_to_html "```\nx & y\n```" = "<pre>x &amp; y\n</pre>" := by
    show (⟨convertChars "```\nx & y\n```".data⟩ : String) = _
    unfold convertChars
    rw [show "```\nx & y\n```".data
        = [bq, bq, bq, '\n'] ++ "x & y\n".data ++ [bq, bq, bq] from by decide]
    rw [fencedSub_fence "x & y\n".data (by decide)]
    rw [inlineCodeSub_id _ (by decide), headerSub_id _ (by decide),
      boldSub_id '*' _ (by decide), boldSub_id '_' _ (by decide),
      italSub_id '*' _ (by decide) none, italSub_id '_' _ (by decide) none,
      bulletSub_id _ (by decide)]
    rw [show "<pre>".data ++ "x & y\n".data ++ "</pre>".data
        = [] ++ '<' :: ("pre".data ++ '>' :: ("x & y\n".data
            ++ '<' :: ("/pre".data ++ '>' :: []))) from by decide]
    rw [escape_tag_decomp [] "pre".data _ (by decide) (by decide) (by decide)]
    rw [escape_tag_decomp "x & y\n".data "/pre".data [] (by decide) (by decide) (by decide)]
    rw [escape_nil]
    decide
  exact ⟨h, by rw [h]; decide⟩

/-- C2 (amended): a fenced code block is wrapped in a pre element; content
consisting of alphanumerics, spaces and newlines passes through verbatim,
but characters with markup or HTML significance inside the block are still
transformed by the later steps, in particular a literal ampersand in a
text segment is escaped. -/
theorem c2_fenced_block (c : List Char)
    (h : ∀ ch ∈ c, ch.isAlphanum = true ∨ ch = ' ' ∨ ch = '\n') :
    convertChars ([bq, bq, bq, '\n'] ++ c ++ [bq, bq, bq])
      = "<pre>".data ++ c ++ "</pre>".data := by
  have hbq : bq ∉ c := fun hm => absurd (h _ hm) (by decide)
  have hmid : ∀ ch ∈ "<pre>".data ++ c ++ "</pre>".data,
      ¬ ch = bq ∧ ¬ ch = '#' ∧ ¬ ch = '*' ∧ ¬ ch = '_' ∧ ¬ ch = '-' := by
    have hpre : ∀ ch ∈ "<pre>".data,
        ¬ ch = bq ∧ ¬ ch = '#' ∧ ¬ ch = '*' ∧ ¬ ch = '_' ∧ ¬ ch = '-' := by decide
    have hpost : ∀ ch ∈ "</pre>".data,
        ¬ ch = bq ∧ ¬ ch = '#' ∧ ¬ ch = '*' ∧ ¬ ch = '_' ∧ ¬ ch = '-' := by decide
    intro ch hm
    rcases List.mem_append.mp hm with hm1 | hm1
    · rcases List.mem_append.mp hm1 with hm2 | hm2
      · exact hpre ch hm2
      · have h1 := h ch hm2
        refine ⟨?_, ?_, ?_, ?_, ?_⟩ <;> (rintro rfl; revert h1; decide)
    · exact hpost ch hm1
  have hesc : ∀ ch ∈ c, ¬ ch = '&' ∧ ¬ ch = '<' ∧ ¬ ch = '>' := by
    intro ch hm
    have h1 := h ch hm
    refine ⟨?_, ?_, ?_⟩ <;> (rintro rfl; revert h1; decide)
  have hlt : '<' ∉ c := fun hm => (hesc _ hm).2.1 rfl
  have hshape : "<pre>".data ++ c ++ "</pre>".data
      = [] ++ '<' :: ("pre".data ++ '>' :: (c ++ '<' :: ("/pre".data ++ '>' :: []))) := by
    rw [List.nil_append, List.append_assoc]
    rfl
  unfold convertChars
  rw [fencedSub_fence c hbq]
  rw [inlineCodeSub_id _ (fun hm => (hmid _ hm).1 rfl)]
  rw [headerSub_id _ (fun hm => (hmid _ hm).2.1 rfl)]
  rw [boldSub_id '*' _ (fun hm => (hmid _ hm).2.2.1 rfl)]
  rw [boldSub_id '_' _ (fun hm => (hmid _ hm).2.2.2.1 rfl)]
  rw [italSub_id '*' _ (fun hm => (hmid _ hm).2.2.1 rfl) none]
  rw [italSub_id '_' _ (fun hm => (hmid _ hm).2.2.2.1 rfl) none]
  rw [bulletSub_id _ ⟨fun hm => (hmid _ hm).2.2.1 rfl, fun hm => (hmid _ hm).2.2.2.2 rfl⟩]
  rw [hshape]
  rw [escape_tag_decomp [] "pre".data _ (by decide) (by decide) (by decide)]
  rw [escape_tag_decomp c "/pre".data [] hlt (by decide) (by decide)]
  rw [escape_nil, escapeText_id c hesc]
  exact hshape.symm

theorem c2_fenced_block_witness :
    convertChars ([bq, bq, bq, '\n'] ++ "hello world\ncode line".data ++ [bq, bq, bq])
      = "<pre>".data ++ "hello world\ncode line".data ++ "</pre>".data :=
  c2_fenced_block "hello world\ncode line".data (by decide)

/-- C3 counterexample: a text of length 4098 whose first line has exactly
4096 characters (no line exceeds the limit) still produces a 4097-character
chunk, because the flushed chunk carries the appended newline. -/
theorem c3_counterexample :
    4096 < c3ex.length ∧ (∀ l ∈ splitNl c3ex, l.length ≤ 4096) ∧
    ¬ (∀ ch ∈ chunk_text c3ex, ch.length ≤ 4096) := by
  refine ⟨by rw [c3ex_length]; decide, ?_, ?_⟩
  · rw [c3ex_splitNl]
    intro l hl
    simp only [List.mem_cons, List.not_mem_nil, or_false] at hl
    rcases hl with rfl | rfl
    · rw [List.length_replicate]
    · decide
  · intro hall
    have h2 := hall (List.replicate 4096 'a' ++ ['\n'])
      (by rw [c3ex_chunks]; exact List.mem_cons_self _ _)
    rw [List.length_append, List.length_replicate] at h2
    simp at h2

/-- C3 (amended): a text that fits the limit is one chunk; an oversized
text is split greedily at newlines so that, whenever every line is
strictly shorter than the limit (so that line plus newline fits), every
chunk is within the limit, and the concatenation of the chunks is the
original text with one trailing newline appended. -/
theorem c3_chunking (l : List Char) :
    (l.length ≤ 4096 → chunk_text l = [l]) ∧
    (4096 < l.length →
      ((∀ line ∈ splitNl l, line.length < 4096) → ∀ ch ∈ chunk_text l, ch.length ≤ 4096) ∧
      (chunk_text l).flatten = l ++ ['\n']) := by
  constructor
  · intro h
    unfold chunk_text
    rw [if_pos (show l.length ≤ MAX_LENGTH from h)]
  · intro h
    have hno : ¬ l.length ≤ MAX_LENGTH := by
      show ¬ l.length ≤ 4096
      omega
    constructor
    · intro hlines ch hch
      unfold chunk_text at hch
      rw [if_neg hno] at hch
      refine chunkLines_bound (splitNl l) ([], []) ?_ (by simp) (by simp) ch hch
      intro x hx
      have := hlines x hx
      show x.length + 1 ≤ 4096
      omega
    · unfold chunk_text
      rw [if_neg hno]
      unfold chunkLines
      rw [chunkLines_join, joinLines_splitNl]
      rfl

theorem c3_chunking_witness :
    chunk_text "hi".data = ["hi".data] ∧ (chunk_text c3ex).flatten = c3ex ++ ['\n'] :=
  ⟨(c3_chunking "hi".data).1 (by decide),
   ((c3_chunking c3ex).2 (by rw [c3ex_length]; decide)).2⟩

/-- C8 counterexample: a chunk containing an angle bracket that is not part
of a complete tag-like span keeps that bracket in the tier-b text. -/
theorem c8_counterexample :
    tierB_text "a < b".data = "a < b".data ∧ '<' ∈ tierB_text "a < b".data := by
  have h1 : stripTags "a < b".data = "a < b".data := stripTags_no_gt _ (by decide)
  constructor
  · show (stripTags "a < b".data).filter _ = _
    rw [h1]
    decide
  · show '<' ∈ (stripTags "a < b".data).filter _
    rw [h1]
    decide

/-- C8 (amended): the tier-b text is the chunk with complete tag-like
substrings removed and the raw markdown control characters asterisk,
underscore and backquote removed, so it contains none of those three
characters; an angle bracket not closed by a later one may remain. -/
theorem c8_tierB_strips_markdown (chunk : List Char) :
    '*' ∉ tierB_text chunk ∧ '_' ∉ tierB_text chunk ∧ bq ∉ tierB_text chunk := by
  refine ⟨fun h => ?_, fun h => ?_, fun h => ?_⟩
  · have h2 := (List.mem_filter.mp h).2
    simp at h2
  · have h2 := (List.mem_filter.mp h).2
    simp at h2
  · have h2 := (List.mem_filter.mp h).2
    simp at h2

end Bot
